import Mathlib

/-!
Shallow embedding of the JavaScript tokenizer in `src/tokenizer.rs`
(repository `rust-parse-javascript`).

The Rust code works over the raw bytes of a `&str`; we model the input as a
`List Nat` of byte values.  Byte classification in the source goes through
`(b as char)`, i.e. the byte is interpreted as the Unicode code point
U+0000..U+00FF, so the predicates below spell out the Rust `char` methods
(`is_whitespace`, `is_alphabetic`, `is_numeric`) restricted to that range.

Loops in the source become structural recursion over list suffixes, or
fuel-indexed recursion returning `Option` (with `none` = fuel exhausted) when
an iteration can consume more than the head; the fuel bounds are proved
sufficient below (claim C7).  The single `panic!` in `tokenize_blackspace`
becomes an `Except` error value carrying the offending byte and its absolute
offset, exactly the data of the panic message.
-/

/-- The tokenizer states of `enum TokenizerType`. -/
inductive TT where
  | Whitespace
  | StringLiteral
  | RegexLiteral
  | TemplateLiteral
  | Blackspace
  | LineComment
  | BlockComment
  deriving DecidableEq, Repr

/-- `TokenizerType::is_greyspace`. -/
def TT.is_greyspace : TT → Bool
  | .Whitespace | .BlockComment | .LineComment => true
  | _ => false

/-- The output tokens of `enum Token`.  Borrowed `&str` payloads become byte
lists; `Relational`/`PlusMin` carry their single byte like the Rust `char`. -/
inductive Token where
  | Whitespace (s : List Nat)
  | Shebang (s : List Nat)
  | Keyword (s : List Nat)
  | Identifier (s : List Nat)
  | NumericLiteral (s : List Nat)
  | StringLiteral (s : List Nat)
  | DeIncrement (s : List Nat)
  | RegexLiteral (s : List Nat)
  | Equality (s : List Nat)
  | BitShift (s : List Nat)
  | Relational (c : Nat)
  | PlusMin (c : Nat)
  | LineComment (s : List Nat)
  | BlockComment (s : List Nat)
  | TemplateLiteral (s : List Nat)
  | UpdateAssignment (s : List Nat)
  | Exponeniation
  | Arrow
  | Equal
  | LogicalOr
  | LogicalAnd
  | BitwiseOr
  | BitwiseXOR
  | BitwiseAnd
  | BitwiseNot
  | Modulo
  | Star
  | Slash
  | Semicolon
  | LeftParen
  | RightParen
  | LeftBrace
  | RightBrace
  | LeftBracket
  | RightBracket
  | Dot
  | Comma
  | QuestionMark
  | Colon
  | ExclamationMark
  deriving DecidableEq, Repr

/-- `Token::before_expression`. -/
def Token.before_expression : Token → Bool
  | .LeftBracket | .LeftBrace | .LeftParen | .Comma | .Semicolon | .Colon
  | .QuestionMark | .Equal | .ExclamationMark | .UpdateAssignment _ => true
  | _ => false

/-- `Token::is_greyspace`. -/
def Token.is_greyspace : Token → Bool
  | .Whitespace _ | .BlockComment _ | .LineComment _ | .Shebang _ => true
  | _ => false

/-- Byte list of an ASCII string literal (used to spell out the fixed token
texts and the keyword table; all of them are ASCII). -/
def st (s : String) : List Nat := s.data.map Char.toNat

/-- Rust `char::is_whitespace` for code points below 256 (the White_Space
property: U+0009..U+000D, U+0020, U+0085, U+00A0). -/
def byteIsWhitespace (b : Nat) : Bool :=
  decide (9 ≤ b ∧ b ≤ 13) || b == 32 || b == 133 || b == 160

/-- Rust `char::is_alphabetic` for code points below 256: ASCII letters plus
U+00AA, U+00B5, U+00BA, U+00C0..U+00D6, U+00D8..U+00F6, U+00F8..U+00FF. -/
def byteIsAlphabetic (b : Nat) : Bool :=
  decide (65 ≤ b ∧ b ≤ 90) || decide (97 ≤ b ∧ b ≤ 122) ||
  b == 170 || b == 181 || b == 186 ||
  decide (192 ≤ b ∧ b ≤ 214) || decide (216 ≤ b ∧ b ≤ 246) ||
  decide (248 ≤ b ∧ b ≤ 255)

/-- Rust `char::is_numeric` for code points below 256: ASCII digits plus
U+00B2, U+00B3, U+00B9, U+00BC..U+00BE. -/
def byteIsNumeric (b : Nat) : Bool :=
  decide (48 ≤ b ∧ b ≤ 57) || b == 178 || b == 179 || b == 185 ||
  decide (188 ≤ b ∧ b ≤ 190)

/-- `fn is_id`: alphabetic, `$` (36) or `_` (95). -/
def is_id (c : Nat) : Bool :=
  byteIsAlphabetic c || c == 36 || c == 95

/-- `fn is_keyword`: exact match against the reserved-word table. -/
def is_keyword (s : List Nat) : Bool :=
  s == st "var" || s == st "let" || s == st "function" || s == st "return" ||
  s == st "for" || s == st "undefined" || s == st "in" || s == st "break" ||
  s == st "case" || s == st "continue" || s == st "debugger" ||
  s == st "default" || s == st "do" || s == st "if" || s == st "finally" ||
  s == st "switch" || s == st "throw" || s == st "try" || s == st "const" ||
  s == st "while" || s == st "with" || s == st "new" || s == st "this" ||
  s == st "super" || s == st "class" || s == st "extends" || s == st "export" ||
  s == st "import" || s == st "yield" || s == st "null" || s == st "true" ||
  s == st "false" || s == st "instanceof" || s == st "typeof" ||
  s == st "void" || s == st "delete"

/-- Scanning core of `fn next_occurence_of`: walk the suffix of the input that
starts at absolute index `e`, with the `ignore_next` escape flag. -/
def nextOccAux (byte : Nat) : List Nat → Bool → Nat → Nat
  | [], _, e => e
  | b :: rest, ign, e =>
      if b == byte && !ign then e + 1
      else nextOccAux byte rest (!ign && b == 92) (e + 1)

/-- `fn next_occurence_of` (the `ignore_next` flag starts out `true`). -/
def next_occurence_of (bytes : List Nat) (index : Nat) (byte : Nat) : Nat :=
  nextOccAux byte (bytes.drop index) true index

/-- `fn find_string_literal`. -/
def find_string_literal (bytes : List Nat) (start_index : Nat) (quote_type : Nat) : Nat :=
  next_occurence_of bytes start_index quote_type

/-- `fn find_template_string_literal` (delimiter is a backtick, byte 96). -/
def find_template_string_literal (bytes : List Nat) (start_index : Nat) : Nat :=
  next_occurence_of bytes start_index 96

/-- The trailing-flags scan of `fn find_regex_literal`: extend while the byte
is not whitespace, starting at absolute index `e` over the matching suffix. -/
def skipNonWsAux : List Nat → Nat → Nat
  | [], e => e
  | b :: rest, e => if byteIsWhitespace b then e else skipNonWsAux rest (e + 1)

/-- `fn find_regex_literal`. -/
def find_regex_literal (bytes : List Nat) (start_index : Nat) : Nat :=
  let e := next_occurence_of bytes start_index 47
  skipNonWsAux (bytes.drop e) e

/-- `memchr::memchr`: index of the first occurrence of `byte`. -/
def memchrF (byte : Nat) : List Nat → Option Nat
  | [] => none
  | b :: rest => if b == byte then some 0 else (memchrF byte rest).map (· + 1)

/-- The `while let Some(pos) = memchr(b'/', ..)` loop of the block-comment arm
of `tokenize`: scan for the first slash (byte 47) at absolute index `e ≥ 2`
whose predecessor is a star (`fn is_prev`, i.e. `e - 1 > 0` and byte 42 at
`e - 1`), returning the index one past it; if none, the comment never ends and
the result is the input length.  The list argument is the suffix of `bytes`
starting at `e`. -/
def findBlockEndAux (bytes : List Nat) : List Nat → Nat → Nat
  | [], _ => bytes.length
  | b :: rest, e =>
      if b == 47 && decide (2 ≤ e) && bytes.getD (e - 1) 0 == 42 then e + 1
      else findBlockEndAux bytes rest (e + 1)

/-- `fn is_next`. -/
def isNext (bytes : List Nat) (current_index : Nat) (next : Nat) : Bool :=
  bytes.get? (current_index + 1) == some next

/-- The byte range `bytes[start..ende]` as a list. -/
def listSlice (bytes : List Nat) (start ende : Nat) : List Nat :=
  (bytes.drop start).take (ende - start)

/-- The fatal error of the `panic!` in `tokenize_blackspace`: the offending
byte and its absolute offset in the input. -/
structure TokErr where
  byte : Nat
  offset : Nat
  deriving DecidableEq, Repr

/-- The big operator/punctuation `match` of `tokenize_blackspace`, arm for
arm and in source order; `none` is the `panic!` catch-all.  `curr` is the
byte at the run position, `next`/`nnext` the one/two-byte lookahead, and `n3`
the extra byte tested by the `>>>=` guard. -/
def classifyOp (curr : Nat) (next nnext n3 : Option Nat) : Option Token :=
  if curr = 62 ∧ next = some 62 ∧ nnext = some 62 ∧ n3 = some 61 then
    some (.UpdateAssignment ([62, 62, 62, 61]))
  else if curr = 42 ∧ next = some 42 ∧ nnext = some 61 then
    some (.UpdateAssignment ([42, 42, 61]))
  else if curr = 60 ∧ next = some 60 ∧ nnext = some 61 then
    some (.UpdateAssignment ([60, 60, 61]))
  else if curr = 62 ∧ next = some 62 ∧ nnext = some 61 then
    some (.UpdateAssignment ([62, 62, 61]))
  else if curr = 61 ∧ next = some 61 ∧ nnext = some 61 then
    some (.Equality ([61, 61, 61]))
  else if curr = 33 ∧ next = some 61 ∧ nnext = some 61 then
    some (.Equality ([33, 61, 61]))
  else if curr = 61 ∧ next = some 61 then some (.Equality ([61, 61]))
  else if curr = 60 ∧ next = some 61 then some (.Equality ([60, 61]))
  else if curr = 62 ∧ next = some 61 then some (.Equality ([62, 61]))
  else if curr = 33 ∧ next = some 61 then some (.Equality ([33, 61]))
  else if curr = 43 ∧ next = some 61 then some (.UpdateAssignment ([43, 61]))
  else if curr = 45 ∧ next = some 61 then some (.UpdateAssignment ([45, 61]))
  else if curr = 43 ∧ next = some 43 then some (.DeIncrement ([43, 43]))
  else if curr = 45 ∧ next = some 45 then some (.DeIncrement ([45, 45]))
  else if curr = 60 ∧ next = some 60 then some (.BitShift ([60, 60]))
  else if curr = 62 ∧ next = some 62 then some (.BitShift ([62, 62]))
  else if curr = 42 ∧ next = some 42 then some .Exponeniation
  else if curr = 124 ∧ next = some 124 then some .LogicalOr
  else if curr = 38 ∧ next = some 38 then some .LogicalAnd
  else if curr = 61 ∧ next = some 62 then some .Arrow
  else if curr = 37 ∧ next = some 61 then some (.UpdateAssignment ([37, 61]))
  else if curr = 47 ∧ next = some 61 then some (.UpdateAssignment ([47, 61]))
  else if curr = 42 ∧ next = some 61 then some (.UpdateAssignment ([42, 61]))
  else if curr = 124 ∧ next = some 61 then some (.UpdateAssignment ([124, 61]))
  else if curr = 46 then some .Dot
  else if curr = 40 then some .LeftParen
  else if curr = 41 then some .RightParen
  else if curr = 123 then some .LeftBrace
  else if curr = 125 then some .RightBrace
  else if curr = 91 then some .LeftBracket
  else if curr = 93 then some .RightBracket
  else if curr = 59 then some .Semicolon
  else if curr = 60 ∨ curr = 62 then some (.Relational curr)
  else if curr = 43 ∨ curr = 45 then some (.PlusMin curr)
  else if curr = 61 then some .Equal
  else if curr = 42 then some .Star
  else if curr = 37 then some .Modulo
  else if curr = 47 then some .Slash
  else if curr = 44 then some .Comma
  else if curr = 58 then some .Colon
  else if curr = 63 then some .QuestionMark
  else if curr = 33 then some .ExclamationMark
  else if curr = 126 then some .BitwiseNot
  else if curr = 38 then some .BitwiseAnd
  else if curr = 124 then some .BitwiseOr
  else if curr = 94 then some .BitwiseXOR
  else none

/-- The `end_index += match token` table of `tokenize_blackspace`: extra bytes
consumed beyond `start_index + 1`.  NOTE: the source checks the `"**="`,
`"<<="`, `">>="` spellings but not `">>>="`, which therefore falls into the
generic `UpdateAssignment(_)` arm and consumes only 1 extra byte. -/
def extraFor : Token → Nat
  | .UpdateAssignment s =>
      if s = [42, 42, 61] ∨ s = [60, 60, 61] ∨ s = [62, 62, 61] then 2 else 1
  | .Equality s => if s = [61, 61, 61] ∨ s = [33, 61, 61] then 2 else 1
  | .DeIncrement _ | .BitShift _ | .Exponeniation | .LogicalOr
  | .LogicalAnd | .Arrow => 1
  | _ => 0

/-- The separator push at the top of the `tokenize_blackspace` loop: a
synthetic empty `Whitespace` when the last emitted token is not greyspace. -/
def pushSep (tokens : List Token) : List Token :=
  match tokens.getLast? with
  | some t => if t.is_greyspace then tokens else tokens ++ [.Whitespace []]
  | none => tokens

/-- `fn tokenize_blackspace`, fuel-indexed (each iteration consumes at least
one byte of `l`, so fuel `l.length + 1` suffices; `none` = fuel ran out).
`l` is the remaining run, `pos` its absolute offset in the whole input. -/
def tbF : Nat → List Token → List Nat → Nat → Option (Except TokErr (List Token))
  | 0, _, _, _ => none
  | _ + 1, tokens, [], _ => some (.ok tokens)
  | fuel + 1, tokens, c :: rest, pos =>
      let tokens := pushSep tokens
      if is_id c then
        let run := rest.takeWhile is_id
        tbF fuel (tokens ++ [.Identifier (c :: run)]) (rest.dropWhile is_id)
          (pos + 1 + run.length)
      else if byteIsNumeric c then
        let run := rest.takeWhile byteIsNumeric
        match rest.dropWhile byteIsNumeric with
        | e :: r2 =>
            if e == 101 || e == 69 then
              let run2 := r2.takeWhile byteIsNumeric
              tbF fuel
                (tokens ++ [.NumericLiteral (c :: (run ++ e :: run2))])
                (r2.dropWhile byteIsNumeric) (pos + 2 + run.length + run2.length)
            else
              tbF fuel (tokens ++ [.NumericLiteral (c :: run)])
                (e :: r2) (pos + 1 + run.length)
        | [] =>
            tbF fuel (tokens ++ [.NumericLiteral (c :: run)]) []
              (pos + 1 + run.length)
      else
        match classifyOp c (rest.get? 0) (rest.get? 1) (rest.get? 2) with
        | some tok =>
            let extra := extraFor tok
            tbF fuel (tokens ++ [tok]) (rest.drop extra) (pos + 1 + extra)
        | none => some (.error ⟨c, pos⟩)

/-- `fn tokenize_blackspace` with its sufficient fuel.  The `none` branch is
unreachable (the fuel bound is proved adequate below). -/
def tokenize_blackspace (tokens : List Token) (l : List Nat) (pos : Nat) :
    Except TokErr (List Token) :=
  (tbF (l.length + 1) tokens l pos).getD (.ok tokens)

/-- `fn last_item(&tokens).before_expression()` as used to recompute
`is_possible_expression`.  The Rust access is unchecked and is only reached
with a non-empty vector; the `none` branch is arbitrary. -/
def lastBeforeExpr (tokens : List Token) : Bool :=
  match tokens.getLast? with
  | some t => t.before_expression
  | none => false

/-- The mutable state of the main `tokenize` loop. -/
structure LoopSt where
  tokens : List Token
  tstate : TT
  lastBroke : Nat
  ipe : Bool
  start : Nat
  deriving Repr

/-- The default (`_`) arm of the dispatcher `match`: extend the span while the
bytes keep the same whitespace classification as the state, breaking early at
a literal delimiter not equal to `last_broke_at_index`.  Arguments: greyspace
flag of the state, `last_broke_at_index`, the suffix of the input starting at
absolute index `e`, and `e` itself.  Returns the new `end_index` and the new
`last_broke_at_index`. -/
def spanScan (grey : Bool) (lastBroke : Nat) : List Nat → Nat → Nat × Nat
  | [], e => (e, lastBroke)
  | b :: rest, e =>
      if lastBroke != e && (b == 47 || b == 34 || b == 39 || b == 96) then (e, e)
      else if grey != byteIsWhitespace b then (e, lastBroke)
      else spanScan grey lastBroke rest (e + 1)

/-- The token pushed by the `match state` in the emit step of `tokenize`
(`Blackspace` is only reached when the span is a keyword). -/
def tokenOfState : TT → List Nat → Token
  | .Blackspace, content => .Keyword content
  | .Whitespace, content => .Whitespace content
  | .LineComment, content => .LineComment content
  | .BlockComment, content => .BlockComment content
  | .StringLiteral, content => .StringLiteral content
  | .RegexLiteral, content => .RegexLiteral content
  | .TemplateLiteral, content => .TemplateLiteral content

/-- The shared tail of a `tokenize` loop iteration: slice out the span
`[p, e)`, emit it (keyword test and `tokenize_blackspace` for a `Blackspace`
span, one token otherwise), then flip the state and, when the span was not
greyspace, recompute `is_possible_expression` from the last emitted token. -/
def emitStep (bytes : List Nat) (p : Nat) (stateNew : TT) (tokensMid : List Token)
    (lb : Nat) (e : Nat) (ipe0 : Bool) : Except TokErr LoopSt :=
  let content := listSlice bytes p e
  if stateNew = TT.Blackspace ∧ ¬(is_keyword content = true) then
    match tokenize_blackspace tokensMid content p with
    | .error err => .error err
    | .ok ts => .ok ⟨ts, .Whitespace, lb, lastBeforeExpr ts, e⟩
  else
    let ts := tokensMid ++ [tokenOfState stateNew content]
    if stateNew.is_greyspace then .ok ⟨ts, .Blackspace, lb, ipe0, e⟩
    else .ok ⟨ts, .Whitespace, lb, lastBeforeExpr ts, e⟩

/-- One iteration of the main `tokenize` loop (assuming `st.start` is in
range; the byte defaults to 0 otherwise but the loop never calls it then). -/
def tokStep (bytes : List Nat) (st : LoopSt) : Except TokErr LoopSt :=
  let p := st.start
  let b := bytes.getD p 0
  if b = 47 ∧ isNext bytes p 47 = true then
    let e := match memchrF 10 (bytes.drop p) with
             | some pos => p + pos
             | none => bytes.length
    emitStep bytes p .LineComment st.tokens st.lastBroke e st.ipe
  else if b = 47 ∧ isNext bytes p 42 = true then
    let e := findBlockEndAux bytes (bytes.drop (p + 1)) (p + 1)
    emitStep bytes p .BlockComment st.tokens st.lastBroke e st.ipe
  else if b = 47 ∧ st.ipe = true then
    let tokensMid := if st.tstate = TT.Whitespace then st.tokens ++ [.Whitespace []]
                     else st.tokens
    emitStep bytes p .RegexLiteral tokensMid st.lastBroke
      (find_regex_literal bytes p) st.ipe
  else if b = 34 ∨ b = 39 then
    let tokensMid := if st.tstate = TT.Whitespace then st.tokens ++ [.Whitespace []]
                     else st.tokens
    emitStep bytes p .StringLiteral tokensMid st.lastBroke
      (find_string_literal bytes p b) st.ipe
  else if b = 96 then
    let tokensMid := if st.tstate = TT.Whitespace then st.tokens ++ [.Whitespace []]
                     else st.tokens
    emitStep bytes p .TemplateLiteral tokensMid st.lastBroke
      (find_template_string_literal bytes p) st.ipe
  else
    let r := spanScan st.tstate.is_greyspace st.lastBroke (bytes.drop p) p
    emitStep bytes p st.tstate st.tokens r.2 r.1 st.ipe

/-- The trailing fixup of `tokenize`: append an empty `Whitespace` when the
stream would otherwise end on a blackspace token. -/
def finalize (tokens : List Token) : List Token :=
  match tokens.getLast? with
  | some t => if t.is_greyspace then tokens else tokens ++ [.Whitespace []]
  | none => tokens

/-- The main `while start_index < bytes.len()` loop of `tokenize`,
fuel-indexed (`none` = fuel ran out; adequacy is proved below). -/
def tokLoop (bytes : List Nat) : Nat → LoopSt → Option (Except TokErr (List Token))
  | 0, _ => none
  | fuel + 1, st =>
      if st.start < bytes.length then
        match tokStep bytes st with
        | .error e => some (.error e)
        | .ok st' => tokLoop bytes fuel st'
      else some (.ok (finalize st.tokens))

/-- The shebang prologue of `tokenize`: when the input starts with `#!`
(bytes 35, 33), emit a `Shebang` up to the first newline (or end of input)
and start the loop after it. -/
def initState (input : List Nat) : LoopSt :=
  if 2 ≤ input.length ∧ input.getD 0 0 = 35 ∧ input.getD 1 0 = 33 then
    let nl := (memchrF 10 input).getD input.length
    ⟨[Token.Shebang (input.take nl)], .Whitespace, nl, true, nl⟩
  else ⟨[], .Whitespace, 0, true, 0⟩

/-- Fuel bound for the main loop (proved adequate for claim C7). -/
def tokenizeFuel (input : List Nat) : Nat := 4 * input.length + 4

/-- `fn tokenize` before discharging the fuel: `none` means the fuel bound
was not enough (provably impossible). -/
def tokenizeOpt (input : List Nat) : Option (Except TokErr (List Token)) :=
  tokLoop input (tokenizeFuel input) (initState input)

/-- `fn tokenize`: either the token list, or the data of the
`tokenize_blackspace` panic. -/
def tokenize (input : List Nat) : Except TokErr (List Token) :=
  (tokenizeOpt input).getD (.ok [])

/-- Textual payload of a token: payload-carrying tokens contribute their
slice, fixed-spelling tokens their unique spelling, `Relational`/`PlusMin`
their byte. -/
def Token.payload : Token → List Nat
  | .Whitespace s => s
  | .Shebang s => s
  | .Keyword s => s
  | .Identifier s => s
  | .NumericLiteral s => s
  | .StringLiteral s => s
  | .DeIncrement s => s
  | .RegexLiteral s => s
  | .Equality s => s
  | .BitShift s => s
  | .Relational c => [c]
  | .PlusMin c => [c]
  | .LineComment s => s
  | .BlockComment s => s
  | .TemplateLiteral s => s
  | .UpdateAssignment s => s
  | .Exponeniation => [42, 42]
  | .Arrow => [61, 62]
  | .Equal => [61]
  | .LogicalOr => [124, 124]
  | .LogicalAnd => [38, 38]
  | .BitwiseOr => [124]
  | .BitwiseXOR => [94]
  | .BitwiseAnd => [38]
  | .BitwiseNot => [126]
  | .Modulo => [37]
  | .Star => [42]
  | .Slash => [47]
  | .Semicolon => [59]
  | .LeftParen => [40]
  | .RightParen => [41]
  | .LeftBrace => [123]
  | .RightBrace => [125]
  | .LeftBracket => [91]
  | .RightBracket => [93]
  | .Dot => [46]
  | .Comma => [44]
  | .QuestionMark => [63]
  | .Colon => [58]
  | .ExclamationMark => [33]

/-- Concatenation of the payloads of a token sequence, in order. -/
def payloadConcat (ts : List Token) : List Nat := (ts.map Token.payload).flatten

/-- Whether a token is a `Whitespace` token (of any payload). -/
def isWhitespaceTok : Token → Bool
  | .Whitespace _ => true
  | _ => false

/-- A token sequence with all `Whitespace` tokens removed. -/
def nonWhitespace (ts : List Token) : List Token :=
  ts.filter fun t => !isWhitespaceTok t

/-- A token sequence with all synthetic empty `Whitespace` separators
removed. -/
def nonEmptySep (ts : List Token) : List Token :=
  ts.filter fun t => t != Token.Whitespace []

instance : DecidableEq (Except TokErr (List Token)) := fun a b =>
  match a, b with
  | .error x, .error y =>
      if h : x = y then isTrue (by rw [h])
      else isFalse fun he => h (by cases he; rfl)
  | .error _, .ok _ => isFalse fun he => Except.noConfusion he
  | .ok _, .error _ => isFalse fun he => Except.noConfusion he
  | .ok x, .ok y =>
      if h : x = y then isTrue (by rw [h])
      else isFalse fun he => h (by cases he; rfl)

/-- C1: the lossless-roundtrip claim fails on the code.  On input `>>>=` the
blackspace classifier emits `UpdateAssignment(">>>=")` but advances the cursor
by only two bytes (the extra-length table of `tokenize_blackspace` lists
`"**="`, `"<<="`, `">>="` but omits `">>>="`, which falls into the generic
one-extra-byte arm), so the trailing `>=` is lexed a second time: the payload
concatenation is `>>>=>=`, not the original input `>>>=`. -/
theorem c1_roundtrip_failure :
    tokenize (st ">>>=") =
      .ok [.Whitespace [], .UpdateAssignment (st ">>>="), .Whitespace [],
           .Equality (st ">="), .Whitespace []] ∧
    payloadConcat [.Whitespace [], .UpdateAssignment (st ">>>="), .Whitespace [],
           .Equality (st ">="), .Whitespace []] = st ">>>=>=" ∧
    st ">>>=>=" ≠ st ">>>=" :=
  ⟨by decide, by decide, by decide⟩

/-- C2 counterexample: on input `//a` followed by a newline, the successful
output is a `LineComment` followed directly by a `Whitespace` token — two
adjacent greyspace tokens — refuting the claim that no two greyspace tokens
are ever adjacent. -/
theorem c2_alternation_counterexample :
    tokenize (st "//a\n") = .ok [.LineComment (st "//a"), .Whitespace [10]] ∧
    (Token.LineComment (st "//a")).is_greyspace = true ∧
    (Token.Whitespace [10]).is_greyspace = true :=
  ⟨by decide, rfl, rfl⟩

/-- C4: regex/divide disambiguation.  `a = /foo/` lexes the slash as a
`RegexLiteral` (ignoring `Whitespace` tokens: `Identifier`, `Equal`,
`RegexLiteral`), while in `a / b` the slash is the division token `Slash`
(`Identifier`, `Slash`, `Identifier`); and `before_expression` — the
recomputation of the possible-expression flag from the last emitted token —
holds exactly for `(`, `{`, `[`, comma, `;`, `:`, `?`, `=`, `!` and the
compound-assignment tokens. -/
theorem c4_regex_divide :
    (tokenize (st "a = /foo/") =
      .ok [.Whitespace [], .Identifier (st "a"), .Whitespace (st " "), .Equal,
           .Whitespace (st " "), .RegexLiteral (st "/foo/"), .Whitespace []] ∧
     nonWhitespace
        [.Whitespace [], .Identifier (st "a"), .Whitespace (st " "), .Equal,
         .Whitespace (st " "), .RegexLiteral (st "/foo/"), .Whitespace []] =
       [.Identifier (st "a"), .Equal, .RegexLiteral (st "/foo/")]) ∧
    (tokenize (st "a / b") =
      .ok [.Whitespace [], .Identifier (st "a"), .Whitespace (st " "), .Slash,
           .Whitespace (st " "), .Identifier (st "b"), .Whitespace []] ∧
     nonWhitespace
        [.Whitespace [], .Identifier (st "a"), .Whitespace (st " "), .Slash,
         .Whitespace (st " "), .Identifier (st "b"), .Whitespace []] =
       [.Identifier (st "a"), .Slash, .Identifier (st "b")]) ∧
    (∀ t : Token, t.before_expression = true ↔
      (t = .LeftParen ∨ t = .LeftBrace ∨ t = .LeftBracket ∨ t = .Comma ∨
       t = .Semicolon ∨ t = .Colon ∨ t = .QuestionMark ∨ t = .Equal ∨
       t = .ExclamationMark ∨ ∃ s, t = .UpdateAssignment s)) := by
  refine ⟨⟨by decide, by decide⟩, ⟨by decide, by decide⟩, ?_⟩
  intro t
  cases t <;> simp [Token.before_expression]

/-- Witness for C4: a concrete instance of the `before_expression`
characterization, via `c4_regex_divide`. -/
theorem c4_regex_divide_witness : Token.before_expression Token.Equal = true :=
  (c4_regex_divide.2.2 Token.Equal).mpr
    (Or.inr (Or.inr (Or.inr (Or.inr (Or.inr (Or.inr (Or.inr (Or.inl rfl))))))))

/-- C5 counterexample: `function2` does not lex to `Identifier("function2")`
— no token of the output carries that payload.  `is_id` rejects digits, so
the run splits into `Identifier("function")` and `NumericLiteral("2")`. -/
theorem c5_keyword_counterexample :
    tokenize (st "function2") =
      .ok [.Whitespace [], .Identifier (st "function"), .Whitespace [],
           .NumericLiteral (st "2"), .Whitespace []] ∧
    Token.Identifier (st "function2") ∉
      [Token.Whitespace [], .Identifier (st "function"), .Whitespace [],
       .NumericLiteral (st "2"), .Whitespace []] :=
  ⟨by decide, by decide⟩

/-- C5 amended: `function` gives `Keyword("function")` as its only
non-whitespace token (keyword match is an exact whole-run comparison), but
`function2` splits into `Identifier("function")` and `NumericLiteral("2")`
because digits are never identifier characters (`is_id` is false on every
decimal digit, for the first as well as later characters). -/
theorem c5_keyword_amended :
    (tokenize (st "function") =
      .ok [.Whitespace [], .Keyword (st "function"), .Whitespace []] ∧
     nonWhitespace [.Whitespace [], .Keyword (st "function"), .Whitespace []] =
       [.Keyword (st "function")]) ∧
    (tokenize (st "function2") =
      .ok [.Whitespace [], .Identifier (st "function"), .Whitespace [],
           .NumericLiteral (st "2"), .Whitespace []] ∧
     nonEmptySep [.Whitespace [], .Identifier (st "function"), .Whitespace [],
           .NumericLiteral (st "2"), .Whitespace []] =
       [.Identifier (st "function"), .NumericLiteral (st "2")]) ∧
    (∀ b : Nat, 48 ≤ b → b ≤ 57 → is_id b = false) := by
  refine ⟨⟨by decide, by decide⟩, ⟨by decide, by decide⟩, ?_⟩
  intro b h1 h2
  interval_cases b <;> decide

/-- Witness for C5 amended: the digit byte `2` is not an identifier
character. -/
theorem c5_keyword_amended_witness : is_id 50 = false :=
  c5_keyword_amended.2.2 50 (by decide) (by decide)

/-- C6: unterminated literals are not errors; their spans extend to the end
of the input.  In particular `/* never closes` succeeds with exactly one
`BlockComment` token covering the entire input, and unterminated string,
template and regex literals likewise succeed spanning to end of input. -/
theorem c6_unterminated_literals :
    tokenize (st "/* never closes") = .ok [.BlockComment (st "/* never closes")] ∧
    tokenize (st "\"abc") =
      .ok [.Whitespace [], .StringLiteral (st "\"abc"), .Whitespace []] ∧
    tokenize (st "`abc") =
      .ok [.Whitespace [], .TemplateLiteral (st "`abc"), .Whitespace []] ∧
    tokenize (st "/abc") =
      .ok [.Whitespace [], .RegexLiteral (st "/abc"), .Whitespace []] :=
  ⟨by decide, by decide, by decide, by decide⟩

/-- C9: `3.14` lexes (ignoring the synthetic empty `Whitespace` separators)
to exactly `NumericLiteral("3")`, `Dot`, `NumericLiteral("14")` — the decimal
point is not part of a numeric literal. -/
theorem c9_numeric_dot_split :
    tokenize (st "3.14") =
      .ok [.Whitespace [], .NumericLiteral (st "3"), .Whitespace [], .Dot,
           .Whitespace [], .NumericLiteral (st "14"), .Whitespace []] ∧
    nonEmptySep [.Whitespace [], .NumericLiteral (st "3"), .Whitespace [], .Dot,
           .Whitespace [], .NumericLiteral (st "14"), .Whitespace []] =
      [.NumericLiteral (st "3"), .Dot, .NumericLiteral (st "14")] :=
  ⟨by decide, by decide⟩


lemma get?_drop_cons {bytes : List Nat} {e b : Nat} (h : bytes.get? e = some b) :
    bytes.drop e = b :: bytes.drop (e + 1) := by
  rw [List.get?_eq_getElem?] at h
  obtain ⟨hlt, hv⟩ := List.getElem?_eq_some_iff.mp h
  rw [List.drop_eq_getElem_cons hlt, hv]

lemma getD_of_get? {bytes : List Nat} {e b : Nat} (h : bytes.get? e = some b) :
    bytes.getD e 0 = b := by
  rw [List.get?_eq_getElem?] at h
  simp [List.getD, h]

lemma lt_length_of_get? {bytes : List Nat} {e b : Nat} (h : bytes.get? e = some b) :
    e < bytes.length := by
  rw [List.get?_eq_getElem?] at h
  exact (List.getElem?_eq_some_iff.mp h).1

lemma head_of_drop_cons {bytes rest : List Nat} {e b : Nat}
    (h : bytes.drop e = b :: rest) : bytes.get? e = some b := by
  have h0 : (bytes.drop e).get? 0 = some b := by rw [h]; rfl
  rw [List.get?_drop] at h0
  simpa using h0

lemma tail_of_drop_cons {bytes rest : List Nat} {e b : Nat}
    (h : bytes.drop e = b :: rest) : rest = bytes.drop (e + 1) := by
  have ht : (bytes.drop e).tail = bytes.drop (e + 1) := by rw [List.tail_drop]
  rw [h] at ht
  simpa using ht

/-- Modelled from the spec (claim C8): the number of consecutive backslash
bytes (92) immediately preceding position `j` — "a backslash escapes the byte
after it and two consecutive backslashes cancel" means position `j` is
escaped exactly when this count is odd. -/
def bsRun (bytes : List Nat) : Nat → Nat
  | 0 => 0
  | j + 1 => if bytes.getD j 0 == 92 then bsRun bytes j + 1 else 0

/-- The escape flag the spec describes at position `e`: an odd run of
backslashes right before `e`. -/
def specIgn (bytes : List Nat) (e : Nat) : Bool := bsRun bytes e % 2 == 1

/-- Modelled from the spec (claim C8): the first position at or after the
absolute index carried alongside the suffix that holds the quote byte `q`
with an even number of immediately preceding backslashes. -/
def firstUnescapedAux (bytes : List Nat) (q : Nat) : List Nat → Nat → Option Nat
  | [], _ => none
  | b :: rest, j =>
      if b == q && bsRun bytes j % 2 == 0 then some j
      else firstUnescapedAux bytes q rest (j + 1)

/-- Modelled from the spec (claim C8): the string-span finder result — one
byte past the first occurrence of the quote byte strictly after `index` that
is not escaped, or the input length if there is none. -/
def specStringEnd (bytes : List Nat) (index q : Nat) : Nat :=
  match firstUnescapedAux bytes q (bytes.drop (index + 1)) (index + 1) with
  | some j => j + 1
  | none => bytes.length

lemma nextOccAux_eq_spec (bytes : List Nat) (q : Nat) :
    ∀ (l : List Nat) (e : Nat), l = bytes.drop e →
      nextOccAux q l (specIgn bytes e) e =
        (match firstUnescapedAux bytes q l e with
         | some j => j + 1
         | none => e + l.length) := by
  intro l
  induction l with
  | nil => intro e _; simp [nextOccAux, firstUnescapedAux]
  | cons b rest ih =>
    intro e hl
    have hb : bytes.get? e = some b := head_of_drop_cons hl.symm
    have hrest : rest = bytes.drop (e + 1) := tail_of_drop_cons hl.symm
    have hbs : bsRun bytes (e + 1) = if b == 92 then bsRun bytes e + 1 else 0 := by
      simp only [bsRun, getD_of_get? hb]
    have hpar : (!(specIgn bytes e)) = (bsRun bytes e % 2 == 0) := by
      unfold specIgn
      rcases Nat.mod_two_eq_zero_or_one (bsRun bytes e) with h | h <;> simp [h]
    have hign : ((!(specIgn bytes e)) && b == 92) = specIgn bytes (e + 1) := by
      unfold specIgn
      cases hb92 : (b == 92) with
      | true =>
          have h1 : bsRun bytes (e + 1) = bsRun bytes e + 1 := by simp [hbs, hb92]
          rcases Nat.mod_two_eq_zero_or_one (bsRun bytes e) with h | h
          · have h2 : (bsRun bytes e + 1) % 2 = 1 := by omega
            simp [hpar, h1, h, h2]
          · have h2 : (bsRun bytes e + 1) % 2 = 0 := by omega
            simp [hpar, h1, h, h2]
      | false =>
          have h1 : bsRun bytes (e + 1) = 0 := by simp [hbs, hb92]
          simp [h1, hb92]
    cases hc : (b == q && bsRun bytes e % 2 == 0) with
    | true =>
        have hc' : (b == q && !(specIgn bytes e)) = true := by rw [hpar]; exact hc
        simp [nextOccAux, firstUnescapedAux, hc, hc']
    | false =>
        have hc' : (b == q && !(specIgn bytes e)) = false := by rw [hpar]; exact hc
        simp only [nextOccAux, firstUnescapedAux, hc, hc', Bool.false_eq_true,
          if_false]
        rw [hign, ih (e + 1) hrest]
        cases hfu : firstUnescapedAux bytes q rest (e + 1) with
        | some j => simp [hfu]
        | none => simp only [hfu, List.length_cons]; ring

/-- C8: given the position of the opening quote byte (`"` = 34 or `'` = 39),
the string-span finder returns the index one byte past the first later
occurrence of that same quote byte that is not escaped — a backslash escapes
the byte after it and two consecutive backslashes cancel, i.e. an occurrence
is escaped exactly when the run of immediately preceding backslashes has odd
length — or the input length if no such occurrence exists.  Only occurrences
of the same byte `q` count, so a single quote never closes a double-quoted
literal and vice versa. -/
theorem c8_string_finder (bytes : List Nat) (index q : Nat)
    (hq : q = 34 ∨ q = 39) (hopen : bytes.get? index = some q) :
    find_string_literal bytes index q = specStringEnd bytes index q := by
  unfold find_string_literal next_occurence_of
  rw [get?_drop_cons hopen]
  have hq92 : (q == 92) = false := by rcases hq with h | h <;> simp [h]
  have hstep : nextOccAux q (q :: bytes.drop (index + 1)) true index =
      nextOccAux q (bytes.drop (index + 1)) false (index + 1) := by
    simp [nextOccAux]
  rw [hstep]
  have hgd : bytes.getD index 0 = q := getD_of_get? hopen
  have hbs0 : specIgn bytes (index + 1) = false := by
    have hz : bsRun bytes (index + 1) = 0 := by
      simp only [bsRun, hgd, hq92, Bool.false_eq_true, if_false]
    simp [specIgn, hz]
  rw [← hbs0]
  rw [nextOccAux_eq_spec bytes q (bytes.drop (index + 1)) (index + 1) rfl]
  unfold specStringEnd
  have hlen : index < bytes.length := lt_length_of_get? hopen
  cases hfu : firstUnescapedAux bytes q (bytes.drop (index + 1)) (index + 1) with
  | some j => simp
  | none =>
      simp only []
      rw [List.length_drop]
      show index + 1 + (bytes.length - (index + 1)) = bytes.length
      omega

/-- Witness for C8 at a concrete input, the five bytes 34, 97, 92, 34, 34
(a double-quoted literal containing an escaped quote): the quote at position
3 is escaped, the one at position 4 closes the literal, and the finder
agrees with the spec-side description, both returning 5. -/
theorem c8_string_finder_witness :
    (st "\"a\\\"\"").get? 0 = some 34 ∧
    find_string_literal (st "\"a\\\"\"") 0 34 = specStringEnd (st "\"a\\\"\"") 0 34 ∧
    find_string_literal (st "\"a\\\"\"") 0 34 = 5 :=
  ⟨by decide, c8_string_finder (st "\"a\\\"\"") 0 34 (Or.inl rfl) (by decide),
   by decide⟩

/-- The bytes that begin some arm of the operator/punctuation `match` in
`tokenize_blackspace` (every arm of `classifyOp` has its first byte here, and
every byte here has an unconditional single-byte fallback arm). -/
def opStartByte (b : Nat) : Bool :=
  b == 62 || b == 42 || b == 60 || b == 61 || b == 33 || b == 43 || b == 45 ||
  b == 124 || b == 38 || b == 37 || b == 47 || b == 46 || b == 40 || b == 41 ||
  b == 123 || b == 125 || b == 91 || b == 93 || b == 59 || b == 44 || b == 58 ||
  b == 63 || b == 126 || b == 94

/-- A byte on which the blackspace classifier hits its `panic!` catch-all:
not an identifier character, not numeric, and matching none of the fixed
operator/punctuation cases. -/
def unclassifiableByte (b : Nat) : Bool :=
  !(is_id b) && !(byteIsNumeric b) && !(opStartByte b)


lemma bool_eq_false {b : Bool} (h : ¬ b = true) : b = false := by
  cases b <;> simp_all

lemma dropWhile_eq_drop (p : Nat → Bool) :
    ∀ l : List Nat, l.dropWhile p = l.drop (l.takeWhile p).length
  | [] => rfl
  | c :: rest => by
      by_cases h : p c = true
      · simp [List.dropWhile_cons, List.takeWhile_cons, h, dropWhile_eq_drop p rest]
      · simp [List.dropWhile_cons, List.takeWhile_cons, h]

lemma get?_dropWhile (p : Nat → Bool) (l : List Nat) (k : Nat) :
    (l.dropWhile p).get? k = l.get? ((l.takeWhile p).length + k) := by
  rw [dropWhile_eq_drop, List.get?_drop]

lemma classifyOp_ne_none_of_opStart {c : Nat} (n nn n3 : Option Nat)
    (hop : opStartByte c = true) : classifyOp c n nn n3 ≠ none := by
  simp only [opStartByte, Bool.or_eq_true, beq_iff_eq] at hop
  rcases hop with ((((((((((((((((((((((rfl | rfl) | rfl) | rfl) | rfl) | rfl) | rfl) | rfl) | rfl) | rfl) | rfl) | rfl) | rfl) | rfl) | rfl) | rfl) | rfl) | rfl) | rfl) | rfl) | rfl) | rfl) | rfl) | rfl <;>
    (intro he; simp only [classifyOp] at he; norm_num at he;
     repeat' split at he) <;> simp_all

lemma classifyOp_none_opStart {c : Nat} {n nn n3 : Option Nat}
    (h : classifyOp c n nn n3 = none) : opStartByte c = false := by
  cases hop : opStartByte c with
  | false => rfl
  | true => exact absurd h (classifyOp_ne_none_of_opStart n nn n3 hop)

lemma tbF_error : ∀ (fuel : Nat) (tokens : List Token) (l : List Nat)
    (pos : Nat) (err : TokErr), tbF fuel tokens l pos = some (.error err) →
    ∃ k, l.get? k = some err.byte ∧ err.offset = pos + k ∧
      unclassifiableByte err.byte = true := by
  intro fuel
  induction fuel with
  | zero => intro tokens l pos err h; simp [tbF] at h
  | succ fuel ih =>
    intro tokens l pos err h
    match l with
    | [] => simp [tbF] at h
    | c :: rest =>
      simp only [tbF] at h
      by_cases hid : is_id c = true
      · rw [if_pos hid] at h
        obtain ⟨k, hk, hoff, hun⟩ := ih _ _ _ _ h
        refine ⟨((rest.takeWhile is_id).length + k) + 1, ?_, by omega, hun⟩
        rw [List.get?_cons_succ, ← get?_dropWhile is_id rest k]
        exact hk
      · rw [if_neg hid] at h
        by_cases hnum : byteIsNumeric c = true
        · rw [if_pos hnum] at h
          split at h
          next e r2 heq =>
            by_cases he : (e == 101 || e == 69) = true
            · rw [if_pos he] at h
              obtain ⟨k, hk, hoff, hun⟩ := ih _ _ _ _ h
              refine ⟨((rest.takeWhile byteIsNumeric).length +
                (1 + ((r2.takeWhile byteIsNumeric).length + k))) + 1, ?_, by omega, hun⟩
              rw [List.get?_cons_succ,
                ← get?_dropWhile byteIsNumeric rest
                  (1 + ((r2.takeWhile byteIsNumeric).length + k)),
                heq]
              have h1 : 1 + ((r2.takeWhile byteIsNumeric).length + k) =
                  ((r2.takeWhile byteIsNumeric).length + k) + 1 := by omega
              rw [h1, List.get?_cons_succ, ← get?_dropWhile byteIsNumeric r2 k]
              exact hk
            · rw [if_neg he] at h
              obtain ⟨k, hk, hoff, hun⟩ := ih _ _ _ _ h
              refine ⟨((rest.takeWhile byteIsNumeric).length + k) + 1, ?_, by omega, hun⟩
              rw [List.get?_cons_succ, ← get?_dropWhile byteIsNumeric rest k, heq]
              exact hk
          next heq =>
            obtain ⟨k, hk, hoff, hun⟩ := ih _ _ _ _ h
            simp at hk
        · rw [if_neg hnum] at h
          split at h
          next tok heq =>
            obtain ⟨k, hk, hoff, hun⟩ := ih _ _ _ _ h
            refine ⟨(extraFor tok + k) + 1, ?_, by omega, hun⟩
            rw [List.get?_cons_succ, ← List.get?_drop]
            exact hk
          next heq =>
            simp only [Option.some.injEq] at h
            injection h with h3
            subst h3
            exact ⟨0, rfl, rfl,
              by simp [unclassifiableByte, bool_eq_false hid, bool_eq_false hnum,
                classifyOp_none_opStart heq]⟩

lemma tokenize_blackspace_error {tokens : List Token} {l : List Nat} {pos : Nat}
    {err : TokErr} (h : tokenize_blackspace tokens l pos = .error err) :
    ∃ k, l.get? k = some err.byte ∧ err.offset = pos + k ∧
      unclassifiableByte err.byte = true := by
  cases htb : tbF (l.length + 1) tokens l pos with
  | none => simp [tokenize_blackspace, htb] at h
  | some r =>
      have hr : r = .error err := by simpa [tokenize_blackspace, htb] using h
      exact tbF_error _ _ _ _ _ (hr ▸ htb)

lemma listSlice_get? {bytes : List Nat} {p e k b : Nat}
    (h : (listSlice bytes p e).get? k = some b) : bytes.get? (p + k) = some b := by
  unfold listSlice at h
  have h2 : (bytes.drop p).get? k = some b := by
    by_cases hk : k < e - p
    · rw [List.get?_take hk] at h
      exact h
    · rw [List.get?_eq_getElem?] at h
      rw [List.getElem?_take] at h
      simp [hk] at h
  rw [List.get?_drop] at h2
  exact h2

lemma emitStep_error {bytes : List Nat} {p : Nat} {sN : TT} {tMid : List Token}
    {lb e : Nat} {ipe0 : Bool} {err : TokErr}
    (h : emitStep bytes p sN tMid lb e ipe0 = .error err) :
    bytes.get? err.offset = some err.byte ∧ unclassifiableByte err.byte = true := by
  simp only [emitStep] at h
  split at h
  · split at h
    next err2 heq =>
      injection h with h3
      subst h3
      obtain ⟨k, hk, hoff, hun⟩ := tokenize_blackspace_error heq
      refine ⟨?_, hun⟩
      rw [hoff]
      exact listSlice_get? hk
    next ts heq => exact Except.noConfusion h
  · split at h <;> exact Except.noConfusion h

lemma tokStep_error {bytes : List Nat} {st : LoopSt} {err : TokErr}
    (h : tokStep bytes st = .error err) :
    bytes.get? err.offset = some err.byte ∧ unclassifiableByte err.byte = true := by
  simp only [tokStep] at h
  split_ifs at h <;> exact emitStep_error h

lemma tokLoop_error (bytes : List Nat) : ∀ (fuel : Nat) (st : LoopSt) (err : TokErr),
    tokLoop bytes fuel st = some (.error err) →
    bytes.get? err.offset = some err.byte ∧ unclassifiableByte err.byte = true := by
  intro fuel
  induction fuel with
  | zero => intro st err h; simp [tokLoop] at h
  | succ fuel ih =>
    intro st err h
    rw [tokLoop] at h
    split at h
    · split at h
      next e heq =>
        simp only [Option.some.injEq] at h
        injection h with h3
        subst h3
        exact tokStep_error heq
      next st' heq => exact ih _ _ h
    · simp at h

/-- C3: `tokenize` fails exactly at the blackspace classifier catch-all, and
nowhere else.  First part: every error carries the offending byte and its
absolute byte offset in the input, and that byte matches none of the
classifier cases (not an identifier character per `is_id`, not numeric, and
no operator/punctuation arm applies).  Second part: this is the only failure
condition — an input none of whose bytes is unclassifiable always
tokenizes successfully. -/
theorem c3_failure_semantics :
    (∀ (input : List Nat) (err : TokErr), tokenize input = .error err →
      input.get? err.offset = some err.byte ∧ unclassifiableByte err.byte = true) ∧
    (∀ input : List Nat,
      (∀ i b, input.get? i = some b → unclassifiableByte b = false) →
      ∃ ts, tokenize input = .ok ts) := by
  have main : ∀ (input : List Nat) (err : TokErr), tokenize input = .error err →
      input.get? err.offset = some err.byte ∧ unclassifiableByte err.byte = true := by
    intro input err h
    unfold tokenize tokenizeOpt at h
    cases hl : tokLoop input (tokenizeFuel input) (initState input) with
    | none => rw [hl] at h; simp [Option.getD] at h
    | some r =>
        rw [hl] at h
        simp only [Option.getD] at h
        exact tokLoop_error input _ _ _ (h ▸ hl)
  refine ⟨main, ?_⟩
  intro input hall
  cases ht : tokenize input with
  | ok ts => exact ⟨ts, rfl⟩
  | error err =>
      obtain ⟨hb, hun⟩ := main input err ht
      rw [hall _ _ hb] at hun
      exact absurd hun (by simp)

/-- Witness for C3: on the input `a@b` the tokenizer aborts at the byte `@`
(64) at offset 1, and the theorem pins that byte in the input and certifies
it unclassifiable. -/
theorem c3_failure_semantics_witness :
    (st "a@b").get? 1 = some 64 ∧ unclassifiableByte 64 = true :=
  c3_failure_semantics.1 (st "a@b") ⟨64, 1⟩ (by decide)

/-- Alternation bookkeeping: scanning left to right, `chainOk prevGrey ts`
holds when no non-greyspace token is preceded by a non-greyspace token
(`prevGrey` says whether the element before the list, if any, was
greyspace; `false` at the front also forbids starting with blackspace). -/
def chainOk : Bool → List Token → Bool
  | _, [] => true
  | prevGrey, t :: ts => (t.is_greyspace || prevGrey) && chainOk t.is_greyspace ts

/-- Greyspace flag of the last token (`false` for the empty list). -/
def lastGrey (tokens : List Token) : Bool :=
  match tokens.getLast? with
  | some t => t.is_greyspace
  | none => false

/-- Greyspace flag of the last token, defaulting to `q` for the empty list. -/
def lastGreyOr (q : Bool) (tokens : List Token) : Bool :=
  match tokens.getLast? with
  | some t => t.is_greyspace
  | none => q

lemma lastGreyOr_cons (q : Bool) (u : Token) (ts : List Token) :
    lastGreyOr q (u :: ts) = lastGreyOr u.is_greyspace ts := by
  cases ts with
  | nil => simp [lastGreyOr]
  | cons v ts' =>
      unfold lastGreyOr
      rw [List.getLast?_cons_cons]
      cases hgl : (v :: ts').getLast? with
      | none => simp at hgl
      | some w => simp [hgl]

lemma lastGrey_eq_lastGreyOr (ts : List Token) : lastGrey ts = lastGreyOr false ts := rfl

lemma chainOk_append (t : Token) : ∀ (ts : List Token) (q : Bool),
    chainOk q (ts ++ [t]) =
      (chainOk q ts && (t.is_greyspace || lastGreyOr q ts)) := by
  intro ts
  induction ts with
  | nil => intro q; simp [chainOk, lastGreyOr]
  | cons u ts ih =>
      intro q
      simp only [List.cons_append, chainOk, List.append_eq]
      rw [ih u.is_greyspace, lastGreyOr_cons, Bool.and_assoc]

lemma lastGrey_append (ts : List Token) (t : Token) :
    lastGrey (ts ++ [t]) = t.is_greyspace := by
  simp [lastGrey, List.getLast?_concat]

lemma chainOk_append_grey {q : Bool} {ts : List Token} {t : Token}
    (hok : chainOk q ts = true) (ht : t.is_greyspace = true) :
    chainOk q (ts ++ [t]) = true := by
  rw [chainOk_append]; simp [hok, ht]

lemma chainOk_append_lastGrey {ts : List Token} (t : Token)
    (hok : chainOk false ts = true) (hlast : lastGrey ts = true) :
    chainOk false (ts ++ [t]) = true := by
  rw [chainOk_append]
  rw [lastGrey_eq_lastGreyOr] at hlast
  simp [hok, hlast]

lemma pushSep_props (tokens : List Token) (h : chainOk false tokens = true) :
    chainOk false (pushSep tokens) = true ∧
    (tokens ≠ [] → lastGrey (pushSep tokens) = true ∧ pushSep tokens ≠ []) := by
  cases hl : tokens.getLast? with
  | none =>
      simp only [pushSep, hl]
      exact ⟨h, fun hne => absurd (List.getLast?_eq_none_iff.mp hl) hne⟩
  | some t =>
      by_cases hg : t.is_greyspace = true
      · simp only [pushSep, hl, if_pos hg]
        exact ⟨h, fun _ => ⟨by simp [lastGrey, hl, hg],
          fun he => by rw [he] at hl; simp at hl⟩⟩
      · simp only [pushSep, hl, if_neg hg]
        refine ⟨chainOk_append_grey h rfl, fun _ => ⟨?_, by simp⟩⟩
        rw [lastGrey_append]
        rfl

lemma tbF_chain : ∀ (fuel : Nat) (tokens : List Token) (l : List Nat) (pos : Nat)
    (ts' : List Token), chainOk false tokens = true → tokens ≠ [] →
    tbF fuel tokens l pos = some (.ok ts') →
    chainOk false ts' = true ∧ ts' ≠ [] := by
  intro fuel
  induction fuel with
  | zero => intro tokens l pos ts' _ _ h; simp [tbF] at h
  | succ fuel ih =>
    intro tokens l pos ts' hok hne h
    match l with
    | [] =>
        simp only [tbF, Option.some.injEq] at h
        injection h with h2
        subst h2
        exact ⟨hok, hne⟩
    | c :: rest =>
        simp only [tbF] at h
        obtain ⟨hps, hlast⟩ := pushSep_props tokens hok
        obtain ⟨hpl, hpn⟩ := hlast hne
        have hblack : ∀ t : Token, chainOk false (pushSep tokens ++ [t]) = true :=
          fun t => chainOk_append_lastGrey t hps hpl
        by_cases hid : is_id c = true
        · rw [if_pos hid] at h
          exact ih _ _ _ _ (hblack _) (by simp) h
        · rw [if_neg hid] at h
          by_cases hnum : byteIsNumeric c = true
          · rw [if_pos hnum] at h
            split at h
            next e r2 heq =>
              by_cases he : (e == 101 || e == 69) = true
              · rw [if_pos he] at h
                exact ih _ _ _ _ (hblack _) (by simp) h
              · rw [if_neg he] at h
                exact ih _ _ _ _ (hblack _) (by simp) h
            next heq => exact ih _ _ _ _ (hblack _) (by simp) h
          · rw [if_neg hnum] at h
            split at h
            next tok heq => exact ih _ _ _ _ (hblack _) (by simp) h
            next heq => simp at h

lemma tokenize_blackspace_chain {tokens : List Token} {l : List Nat} {pos : Nat}
    {ts' : List Token} (hok : chainOk false tokens = true)
    (hlast : lastGrey tokens = true)
    (h : tokenize_blackspace tokens l pos = .ok ts') :
    chainOk false ts' = true := by
  have hne : tokens ≠ [] := by
    intro he; rw [he] at hlast; simp [lastGrey] at hlast
  cases htb : tbF (l.length + 1) tokens l pos with
  | none =>
      have h2 : tokens = ts' := by simpa [tokenize_blackspace, htb] using h
      rw [← h2]; exact hok
  | some r =>
      have hr : r = .ok ts' := by simpa [tokenize_blackspace, htb] using h
      exact (tbF_chain _ _ _ _ _ hok hne (hr ▸ htb)).1

lemma tokenOfState_grey (sN : TT) (content : List Nat) :
    (tokenOfState sN content).is_greyspace = sN.is_greyspace := by
  cases sN <;> rfl

/-- The loop invariant behind claims C2 (amended) and C10: the accumulated
tokens never put two blackspace tokens next to each other nor start with
one, the state at the loop head is `Whitespace` or `Blackspace`, and in the
latter case the last emitted token is greyspace. -/
def InvTok (st : LoopSt) : Prop :=
  chainOk false st.tokens = true ∧
  (st.tstate = TT.Blackspace → lastGrey st.tokens = true) ∧
  (st.tstate = TT.Whitespace ∨ st.tstate = TT.Blackspace)

lemma emitStep_inv {bytes : List Nat} {p : Nat} {sN : TT} {tMid : List Token}
    {lb e : Nat} {ipe0 : Bool} {st' : LoopSt}
    (hok : chainOk false tMid = true)
    (hlast : sN.is_greyspace = false → lastGrey tMid = true)
    (h : emitStep bytes p sN tMid lb e ipe0 = .ok st') : InvTok st' := by
  simp only [emitStep] at h
  split at h
  next hcond =>
    split at h
    next err heq => exact Except.noConfusion h
    next ts heq =>
      injection h with h2
      subst h2
      refine ⟨?_, fun hB => by simp at hB, Or.inl rfl⟩
      exact tokenize_blackspace_chain hok (hlast (by rw [hcond.1]; rfl)) heq
  next hcond =>
    split at h
    next hg =>
      injection h with h2
      subst h2
      refine ⟨?_, fun _ => ?_, Or.inr rfl⟩
      · exact chainOk_append_grey hok (by rw [tokenOfState_grey]; exact hg)
      · rw [lastGrey_append, tokenOfState_grey]; exact hg
    next hg =>
      injection h with h2
      subst h2
      refine ⟨?_, fun hB => by simp at hB, Or.inl rfl⟩
      exact chainOk_append_lastGrey _ hok (hlast (bool_eq_false hg))

lemma tokStep_inv {bytes : List Nat} {st st' : LoopSt} (hinv : InvTok st)
    (h : tokStep bytes st = .ok st') : InvTok st' := by
  obtain ⟨hok, hB, hWB⟩ := hinv
  have hlit : ∀ (sN : TT) (e : Nat) (st' : LoopSt),
      emitStep bytes st.start sN
        (if st.tstate = TT.Whitespace then st.tokens ++ [Token.Whitespace []]
         else st.tokens) st.lastBroke e st.ipe = .ok st' → InvTok st' := by
    intro sN e st' he
    by_cases hw : st.tstate = TT.Whitespace
    · rw [if_pos hw] at he
      exact emitStep_inv (chainOk_append_grey (t := Token.Whitespace []) hok rfl)
        (fun _ => by rw [lastGrey_append]; rfl) he
    · rw [if_neg hw] at he
      exact emitStep_inv hok (fun _ => hB (hWB.resolve_left hw)) he
  simp only [tokStep] at h
  by_cases h1 : bytes.getD st.start 0 = 47 ∧ isNext bytes st.start 47 = true
  · rw [if_pos h1] at h
    exact emitStep_inv hok (fun hf => absurd hf (by simp [TT.is_greyspace])) h
  · rw [if_neg h1] at h
    by_cases h2 : bytes.getD st.start 0 = 47 ∧ isNext bytes st.start 42 = true
    · rw [if_pos h2] at h
      exact emitStep_inv hok (fun hf => absurd hf (by simp [TT.is_greyspace])) h
    · rw [if_neg h2] at h
      by_cases h3 : bytes.getD st.start 0 = 47 ∧ st.ipe = true
      · rw [if_pos h3] at h
        exact hlit _ _ _ h
      · rw [if_neg h3] at h
        by_cases h4 : bytes.getD st.start 0 = 34 ∨ bytes.getD st.start 0 = 39
        · rw [if_pos h4] at h
          exact hlit _ _ _ h
        · rw [if_neg h4] at h
          by_cases h5 : bytes.getD st.start 0 = 96
          · rw [if_pos h5] at h
            exact hlit _ _ _ h
          · rw [if_neg h5] at h
            exact emitStep_inv hok
              (fun hf => hB (by
                rcases hWB with hw | hb
                · rw [hw] at hf; simp [TT.is_greyspace] at hf
                · exact hb)) h

lemma finalize_chain {tokens : List Token} (hok : chainOk false tokens = true) :
    chainOk false (finalize tokens) = true ∧
    (finalize tokens ≠ [] → lastGrey (finalize tokens) = true) := by
  cases hl : tokens.getLast? with
  | none =>
      simp only [finalize, hl]
      exact ⟨hok, fun hne => absurd (List.getLast?_eq_none_iff.mp hl) hne⟩
  | some t =>
      by_cases hg : t.is_greyspace = true
      · simp only [finalize, hl, if_pos hg]
        exact ⟨hok, fun _ => by simp [lastGrey, hl, hg]⟩
      · simp only [finalize, hl, if_neg hg]
        exact ⟨chainOk_append_grey hok rfl, fun _ => by rw [lastGrey_append]; rfl⟩

lemma tokLoop_chain (bytes : List Nat) : ∀ (fuel : Nat) (st : LoopSt)
    (ts : List Token), InvTok st → tokLoop bytes fuel st = some (.ok ts) →
    chainOk false ts = true ∧ (ts ≠ [] → lastGrey ts = true) := by
  intro fuel
  induction fuel with
  | zero => intro st ts _ h; simp [tokLoop] at h
  | succ fuel ih =>
    intro st ts hinv h
    rw [tokLoop] at h
    split at h
    · split at h
      next e heq => simp at h
      next st' heq => exact ih st' ts (tokStep_inv hinv heq) h
    · simp only [Option.some.injEq] at h
      injection h with h2
      subst h2
      exact finalize_chain hinv.1

lemma initState_inv (input : List Nat) : InvTok (initState input) := by
  simp only [initState]
  split_ifs with h
  · exact ⟨by simp [chainOk, Token.is_greyspace], fun hB => by simp at hB,
      Or.inl rfl⟩
  · exact ⟨rfl, fun hB => by simp at hB, Or.inl rfl⟩

lemma tokenize_ok_chain {input : List Nat} {ts : List Token}
    (h : tokenize input = .ok ts) :
    chainOk false ts = true ∧ (ts ≠ [] → lastGrey ts = true) := by
  unfold tokenize tokenizeOpt at h
  cases hl : tokLoop input (tokenizeFuel input) (initState input) with
  | none =>
      rw [hl] at h
      simp only [Option.getD] at h
      injection h with h2
      exact h2 ▸ ⟨rfl, fun hne => absurd rfl (h2 ▸ hne)⟩
  | some r =>
      rw [hl] at h
      simp only [Option.getD] at h
      exact tokLoop_chain input _ _ _ (initState_inv input) (h ▸ hl)

lemma chainOk_head_grey {ts : List Token} (hok : chainOk false ts = true)
    {t : Token} (hget : ts.get? 0 = some t) : t.is_greyspace = true := by
  cases ts with
  | nil => simp at hget
  | cons t0 ts' =>
      simp only [List.get?_cons_zero, Option.some.injEq] at hget
      subst hget
      simp only [chainOk, Bool.or_false, Bool.and_eq_true] at hok
      exact hok.1

lemma chainOk_black_preceded : ∀ (ts : List Token) (q : Bool),
    chainOk q ts = true → ∀ (j : Nat) (u : Token), ts.get? (j + 1) = some u →
    u.is_greyspace = false →
    ∃ t, ts.get? j = some t ∧ t.is_greyspace = true := by
  intro ts
  induction ts with
  | nil => intro q _ j u hget; simp at hget
  | cons t0 ts' ih =>
      intro q hok j u hget hu
      simp only [chainOk, Bool.and_eq_true] at hok
      cases j with
      | zero =>
          rw [List.get?_cons_succ] at hget
          cases ts' with
          | nil => simp at hget
          | cons u' ts'' =>
              simp only [List.get?_cons_zero, Option.some.injEq] at hget
              subst hget
              have := hok.2
              simp only [chainOk, Bool.and_eq_true, Bool.or_eq_true] at this
              rcases this.1 with hg | hg
              · rw [hg] at hu; exact absurd hu (by simp)
              · exact ⟨t0, rfl, hg⟩
      | succ j' =>
          rw [List.get?_cons_succ] at hget
          obtain ⟨t, ht, hg⟩ := ih t0.is_greyspace hok.2 j' u hget hu
          exact ⟨t, by rw [List.get?_cons_succ]; exact ht, hg⟩

/-- C10: in every token sequence returned by `tokenize`, each non-greyspace
(blackspace) token is immediately preceded by a greyspace token, and
consequently the output never begins with a blackspace token (a blackspace
token can only sit at index `j + 1` with a greyspace token at `j`). -/
theorem c10_blackspace_preceded :
    ∀ (input : List Nat) (ts : List Token), tokenize input = .ok ts →
      ∀ (i : Nat) (t : Token), ts.get? i = some t → t.is_greyspace = false →
        ∃ (j : Nat) (u : Token), i = j + 1 ∧ ts.get? j = some u ∧
          u.is_greyspace = true := by
  intro input ts h i t hget hblack
  have hchain := (tokenize_ok_chain h).1
  cases i with
  | zero =>
      have := chainOk_head_grey hchain hget
      rw [this] at hblack
      exact absurd hblack (by simp)
  | succ j =>
      obtain ⟨u, hu, hg⟩ := chainOk_black_preceded ts false hchain j t hget hblack
      exact ⟨j, u, rfl, hu, hg⟩

/-- Witness for C10 at the input `a`: the `Identifier` token at index 1 is
preceded by the synthetic empty `Whitespace` at index 0. -/
theorem c10_blackspace_preceded_witness :
    ∃ (j : Nat) (u : Token),
      1 = j + 1 ∧
      ([Token.Whitespace [], .Identifier [97], .Whitespace []] : List Token).get? j
        = some u ∧ u.is_greyspace = true :=
  c10_blackspace_preceded (st "a") [Token.Whitespace [], .Identifier [97], .Whitespace []]
    (by decide) 1 (Token.Identifier [97]) (by decide) (by decide)

/-- C2 amended: greyspace and blackspace tokens do not strictly alternate
(see the counterexample), but the blackspace half of the invariant holds: in
every successful non-empty output no two blackspace tokens are adjacent —
around every pair of neighbours at least one is greyspace — and the last
token is always greyspace (an empty `Whitespace` being appended if the
stream would otherwise end on a blackspace token).  Greyspace tokens can be
adjacent, e.g. a comment followed by literal whitespace. -/
theorem c2_alternation_amended :
    ∀ (input : List Nat) (ts : List Token), tokenize input = .ok ts → ts ≠ [] →
      (∀ (i : Nat) (t u : Token), ts.get? i = some t → ts.get? (i + 1) = some u →
        (t.is_greyspace = true ∨ u.is_greyspace = true)) ∧
      (∃ t, ts.getLast? = some t ∧ t.is_greyspace = true) := by
  intro input ts h hne
  obtain ⟨hchain, hlast⟩ := tokenize_ok_chain h
  constructor
  · intro i t u hti htu
    by_cases hu : u.is_greyspace = true
    · exact Or.inr hu
    · obtain ⟨t', ht', hg⟩ := chainOk_black_preceded ts false hchain i u htu
        (bool_eq_false hu)
      rw [hti] at ht'
      injection ht' with ht'
      exact Or.inl (ht' ▸ hg)
  · have hg := hlast hne
    unfold lastGrey at hg
    cases hl : ts.getLast? with
    | none => rw [hl] at hg; simp at hg
    | some t => rw [hl] at hg; exact ⟨t, rfl, hg⟩

/-- Witness for C2 amended at the input `a`: its output ends in a greyspace
token. -/
theorem c2_alternation_amended_witness :
    ∃ t, ([Token.Whitespace [], .Identifier [97], .Whitespace []] :
      List Token).getLast? = some t ∧ t.is_greyspace = true :=
  (c2_alternation_amended (st "a") [Token.Whitespace [], .Identifier [97], .Whitespace []]
    (by decide) (by decide)).2

/-- The number of consecutive non-advancing loop iterations possible from a
given state: 0 at a branch that must advance the cursor, and 1 or 2 in the
dispatcher default branch when the first byte immediately breaks the span
(toggling the state without moving). -/
def phase (bytes : List Nat) (st : LoopSt) : Nat :=
  if st.start < bytes.length then
    if bytes.getD st.start 0 = 47 ∧ isNext bytes st.start 47 = true then 0
    else if bytes.getD st.start 0 = 47 ∧ isNext bytes st.start 42 = true then 0
    else if bytes.getD st.start 0 = 47 ∧ st.ipe = true then 0
    else if bytes.getD st.start 0 = 34 ∨ bytes.getD st.start 0 = 39 then 0
    else if bytes.getD st.start 0 = 96 then 0
    else if st.lastBroke ≠ st.start ∧ bytes.getD st.start 0 = 47 then
      (if st.tstate.is_greyspace = true then 1
       else if lastBeforeExpr st.tokens = true then 1 else 2)
    else if st.tstate.is_greyspace ≠ byteIsWhitespace (bytes.getD st.start 0) then 1
    else 0
  else 0

/-- Loop measure: it strictly decreases at every successful iteration. -/
def M (bytes : List Nat) (st : LoopSt) : Nat :=
  4 * (bytes.length - st.start) + phase bytes st

lemma phase_le_two (bytes : List Nat) (st : LoopSt) : phase bytes st ≤ 2 := by
  unfold phase
  split_ifs <;> omega

lemma M_advance {bytes : List Nat} {st st' : LoopSt}
    (hp : st.start < bytes.length) (hge : st.start + 1 ≤ st'.start) :
    M bytes st' < M bytes st := by
  have h2 := phase_le_two bytes st'
  unfold M
  have hL : bytes.length - st'.start ≤ bytes.length - (st.start + 1) := by omega
  omega

lemma get?_eq_getD {bytes : List Nat} {p : Nat} (hp : p < bytes.length) :
    bytes.get? p = some (bytes.getD p 0) := by
  rw [List.get?_eq_getElem?, List.getElem?_eq_getElem hp]
  simp [List.getD, List.getElem?_eq_getElem hp]

lemma memchrF_cons_ne {byte c : Nat} {rest : List Nat} (hne : ¬ c = byte)
    {pos : Nat} (h : memchrF byte (c :: rest) = some pos) : 1 ≤ pos := by
  unfold memchrF at h
  rw [if_neg (by simpa using hne)] at h
  cases hm : memchrF byte rest with
  | none => rw [hm] at h; simp at h
  | some q => rw [hm] at h; simp at h; omega

lemma findBlockEndAux_ge (bytes : List Nat) :
    ∀ (l : List Nat) (e0 : Nat), findBlockEndAux bytes l e0 = bytes.length ∨
      e0 + 1 ≤ findBlockEndAux bytes l e0 := by
  intro l
  induction l with
  | nil => intro e0; exact Or.inl rfl
  | cons b rest ih =>
      intro e0
      unfold findBlockEndAux
      split_ifs with hc
      · exact Or.inr (le_refl _)
      · rcases ih (e0 + 1) with h | h
        · exact Or.inl h
        · exact Or.inr (by omega)

lemma nextOccAux_ge (byte : Nat) : ∀ (l : List Nat) (ign : Bool) (e : Nat),
    e ≤ nextOccAux byte l ign e := by
  intro l
  induction l with
  | nil => intro ign e; exact le_refl _
  | cons b rest ih =>
      intro ign e
      unfold nextOccAux
      split_ifs with hc
      · omega
      · exact le_trans (by omega) (ih _ (e + 1))

lemma next_occurence_of_ge {bytes : List Nat} {p : Nat} (q : Nat)
    (hp : p < bytes.length) : p + 1 ≤ next_occurence_of bytes p q := by
  unfold next_occurence_of
  rw [get?_drop_cons (get?_eq_getD hp)]
  unfold nextOccAux
  split_ifs with hc
  · omega
  · exact nextOccAux_ge q _ _ _

lemma skipNonWsAux_ge : ∀ (l : List Nat) (e : Nat), e ≤ skipNonWsAux l e := by
  intro l
  induction l with
  | nil => intro e; exact le_refl _
  | cons b rest ih =>
      intro e
      unfold skipNonWsAux
      split_ifs with hc
      · exact le_refl _
      · exact le_trans (by omega) (ih (e + 1))

lemma find_regex_literal_ge {bytes : List Nat} {p : Nat}
    (hp : p < bytes.length) : p + 1 ≤ find_regex_literal bytes p := by
  unfold find_regex_literal
  exact le_trans (next_occurence_of_ge 47 hp) (skipNonWsAux_ge _ _)

lemma spanScan_fst_ge (grey : Bool) (lastBroke : Nat) :
    ∀ (l : List Nat) (e : Nat), e ≤ (spanScan grey lastBroke l e).1 := by
  intro l
  induction l with
  | nil => intro e; exact le_refl _
  | cons b rest ih =>
      intro e
      unfold spanScan
      split_ifs with hc1 hc2
      · exact le_refl _
      · exact le_refl _
      · exact le_trans (by omega) (ih (e + 1))

lemma emitStep_ok_start {bytes : List Nat} {p : Nat} {sN : TT}
    {tMid : List Token} {lb e : Nat} {ipe0 : Bool} {st' : LoopSt}
    (h : emitStep bytes p sN tMid lb e ipe0 = .ok st') :
    st'.start = e ∧ st'.lastBroke = lb ∧
      (st'.tstate = TT.Whitespace ∨ st'.tstate = TT.Blackspace) := by
  simp only [emitStep] at h
  split at h
  next hcond =>
    split at h
    next => exact Except.noConfusion h
    next ts heq => injection h with h2; subst h2; exact ⟨rfl, rfl, Or.inl rfl⟩
  next hcond =>
    split at h
    next hg => injection h with h2; subst h2; exact ⟨rfl, rfl, Or.inr rfl⟩
    next hg => injection h with h2; subst h2; exact ⟨rfl, rfl, Or.inl rfl⟩

lemma emitStep_empty_grey (bytes : List Nat) (p : Nat) (tMid : List Token)
    (lb : Nat) (ipe0 : Bool) :
    emitStep bytes p TT.Whitespace tMid lb p ipe0 =
      .ok ⟨tMid ++ [Token.Whitespace []], TT.Blackspace, lb, ipe0, p⟩ := by
  have hc : listSlice bytes p p = [] := by simp [listSlice]
  simp [emitStep, hc, tokenOfState, TT.is_greyspace]

lemma emitStep_empty_black (bytes : List Nat) (p : Nat) (tMid : List Token)
    (lb : Nat) (ipe0 : Bool) :
    emitStep bytes p TT.Blackspace tMid lb p ipe0 =
      .ok ⟨tMid, TT.Whitespace, lb, lastBeforeExpr tMid, p⟩ := by
  have hc : listSlice bytes p p = [] := by simp [listSlice]
  have hk : is_keyword ([] : List Nat) = false := by decide
  have htb : tokenize_blackspace tMid [] p = .ok tMid := rfl
  simp [emitStep, hc, hk, htb, TT.is_greyspace]

lemma M_phase_lt {bytes : List Nat} {st st' : LoopSt}
    (hss : st'.start = st.start) (hlt : phase bytes st' < phase bytes st) :
    M bytes st' < M bytes st := by
  unfold M
  rw [hss]
  omega

lemma phase_default (bytes : List Nat) (st : LoopSt) (hp : st.start < bytes.length)
    (h1 : ¬(bytes.getD st.start 0 = 47 ∧ isNext bytes st.start 47 = true))
    (h2 : ¬(bytes.getD st.start 0 = 47 ∧ isNext bytes st.start 42 = true))
    (h3 : ¬(bytes.getD st.start 0 = 47 ∧ st.ipe = true))
    (h4 : ¬(bytes.getD st.start 0 = 34 ∨ bytes.getD st.start 0 = 39))
    (h5 : ¬(bytes.getD st.start 0 = 96)) :
    phase bytes st =
      (if st.lastBroke ≠ st.start ∧ bytes.getD st.start 0 = 47 then
        (if st.tstate.is_greyspace = true then 1
         else if lastBeforeExpr st.tokens = true then 1 else 2)
       else if st.tstate.is_greyspace ≠ byteIsWhitespace (bytes.getD st.start 0)
       then 1 else 0) := by
  unfold phase
  rw [if_pos hp, if_neg h1, if_neg h2, if_neg h3, if_neg h4, if_neg h5]

lemma phase_mk (bytes : List Nat) (tokens : List Token) (tstate : TT)
    (lastBroke : Nat) (ipe : Bool) (start : Nat) :
    phase bytes ⟨tokens, tstate, lastBroke, ipe, start⟩ =
      (if start < bytes.length then
        if bytes.getD start 0 = 47 ∧ isNext bytes start 47 = true then 0
        else if bytes.getD start 0 = 47 ∧ isNext bytes start 42 = true then 0
        else if bytes.getD start 0 = 47 ∧ ipe = true then 0
        else if bytes.getD start 0 = 34 ∨ bytes.getD start 0 = 39 then 0
        else if bytes.getD start 0 = 96 then 0
        else if lastBroke ≠ start ∧ bytes.getD start 0 = 47 then
          (if tstate.is_greyspace = true then 1
           else if lastBeforeExpr tokens = true then 1 else 2)
        else if tstate.is_greyspace ≠ byteIsWhitespace (bytes.getD start 0) then 1
        else 0
      else 0) := rfl

lemma tokStep_progress {bytes : List Nat} {st st' : LoopSt}
    (hWB : st.tstate = TT.Whitespace ∨ st.tstate = TT.Blackspace)
    (hp : st.start < bytes.length)
    (h : tokStep bytes st = .ok st') :
    (st'.tstate = TT.Whitespace ∨ st'.tstate = TT.Blackspace) ∧
      M bytes st' < M bytes st := by
  have hdropD : bytes.drop st.start =
      bytes.getD st.start 0 :: bytes.drop (st.start + 1) :=
    get?_drop_cons (get?_eq_getD hp)
  simp only [tokStep] at h
  by_cases h1 : bytes.getD st.start 0 = 47 ∧ isNext bytes st.start 47 = true
  · rw [if_pos h1] at h
    obtain ⟨hst, hlb, hts⟩ := emitStep_ok_start h
    refine ⟨hts, M_advance hp ?_⟩
    rw [hst, hdropD, h1.1]
    cases hm : memchrF 10 (47 :: bytes.drop (st.start + 1)) with
    | some pos =>
        have hge := memchrF_cons_ne (by norm_num) hm
        show st.start + 1 ≤ st.start + pos
        omega
    | none =>
        show st.start + 1 ≤ bytes.length
        omega
  · rw [if_neg h1] at h
    by_cases h2 : bytes.getD st.start 0 = 47 ∧ isNext bytes st.start 42 = true
    · rw [if_pos h2] at h
      obtain ⟨hst, hlb, hts⟩ := emitStep_ok_start h
      refine ⟨hts, M_advance hp ?_⟩
      rw [hst]
      rcases findBlockEndAux_ge bytes (bytes.drop (st.start + 1)) (st.start + 1)
        with hb | hb
      · rw [hb]; omega
      · omega
    · rw [if_neg h2] at h
      by_cases h3 : bytes.getD st.start 0 = 47 ∧ st.ipe = true
      · rw [if_pos h3] at h
        obtain ⟨hst, hlb, hts⟩ := emitStep_ok_start h
        exact ⟨hts, M_advance hp (by rw [hst]; exact find_regex_literal_ge hp)⟩
      · rw [if_neg h3] at h
        by_cases h4 : bytes.getD st.start 0 = 34 ∨ bytes.getD st.start 0 = 39
        · rw [if_pos h4] at h
          obtain ⟨hst, hlb, hts⟩ := emitStep_ok_start h
          exact ⟨hts, M_advance hp
            (by rw [hst]; exact next_occurence_of_ge _ hp)⟩
        · rw [if_neg h4] at h
          by_cases h5 : bytes.getD st.start 0 = 96
          · rw [if_pos h5] at h
            obtain ⟨hst, hlb, hts⟩ := emitStep_ok_start h
            exact ⟨hts, M_advance hp
              (by rw [hst]; exact next_occurence_of_ge _ hp)⟩
          · rw [if_neg h5] at h
            rw [hdropD] at h
            simp only [spanScan] at h
            by_cases c1 : (st.lastBroke != st.start &&
                (bytes.getD st.start 0 == 47 || bytes.getD st.start 0 == 34 ||
                 bytes.getD st.start 0 == 39 || bytes.getD st.start 0 == 96)) = true
            · rw [if_pos c1] at h
              replace h : emitStep bytes st.start st.tstate st.tokens
                  st.start st.start st.ipe = .ok st' := h
              have hlbne : st.lastBroke ≠ st.start := by
                have hcc := c1
                simp only [Bool.and_eq_true, bne_iff_ne] at hcc
                exact hcc.1
              have hb47 : bytes.getD st.start 0 = 47 := by
                have hcc := c1
                simp only [Bool.and_eq_true, Bool.or_eq_true, beq_iff_eq] at hcc
                rcases hcc.2 with ((h' | h') | h') | h'
                · exact h'
                · exact absurd (Or.inl h') h4
                · exact absurd (Or.inr h') h4
                · exact absurd h' h5
              have hps : phase bytes st =
                  (if st.tstate.is_greyspace = true then 1
                   else if lastBeforeExpr st.tokens = true then 1 else 2) := by
                rw [phase_default bytes st hp h1 h2 h3 h4 h5, if_pos ⟨hlbne, hb47⟩]
              rcases hWB with hw | hb2
              · rw [hw] at h
                rw [emitStep_empty_grey] at h
                injection h with h2
                subst h2
                refine ⟨Or.inr rfl, M_phase_lt rfl ?_⟩
                have hpsa : phase bytes st = 1 := by
                  rw [hps, hw]; simp [TT.is_greyspace]
                have hpsb : phase bytes
                    (⟨st.tokens ++ [Token.Whitespace []], TT.Blackspace,
                      st.start, st.ipe, st.start⟩ : LoopSt) = 0 := by
                  rw [phase_mk, if_pos hp, if_neg h1, if_neg h2, if_neg h3,
                    if_neg h4, if_neg h5]
                  rw [if_neg (by simp)]
                  rw [if_neg (by rw [hb47]; decide)]
                rw [hpsb, hpsa]
                omega
              · rw [hb2] at h
                rw [emitStep_empty_black] at h
                injection h with h2
                subst h2
                refine ⟨Or.inl rfl, M_phase_lt rfl ?_⟩
                have hps2 : phase bytes st =
                    (if lastBeforeExpr st.tokens = true then 1 else 2) := by
                  rw [hps, hb2]; simp [TT.is_greyspace]
                by_cases hbe : lastBeforeExpr st.tokens = true
                · have hpsa : phase bytes st = 1 := by rw [hps2, if_pos hbe]
                  have hpsb : phase bytes
                      (⟨st.tokens, TT.Whitespace, st.start,
                        lastBeforeExpr st.tokens, st.start⟩ : LoopSt) = 0 := by
                    rw [phase_mk, if_pos hp, if_neg h1, if_neg h2,
                      if_pos ⟨hb47, hbe⟩]
                  rw [hpsb, hpsa]
                  omega
                · have hpsa : phase bytes st = 2 := by rw [hps2, if_neg hbe]
                  have hpsb : phase bytes
                      (⟨st.tokens, TT.Whitespace, st.start,
                        lastBeforeExpr st.tokens, st.start⟩ : LoopSt) = 1 := by
                    rw [phase_mk, if_pos hp, if_neg h1, if_neg h2,
                      if_neg (fun hcon => hbe hcon.2), if_neg h4, if_neg h5]
                    rw [if_neg (by simp)]
                    rw [if_pos (by rw [hb47]; decide)]
                  rw [hpsb, hpsa]
                  omega
            · rw [if_neg c1] at h
              by_cases c2 : (st.tstate.is_greyspace !=
                  byteIsWhitespace (bytes.getD st.start 0)) = true
              · rw [if_pos c2] at h
                replace h : emitStep bytes st.start st.tstate st.tokens
                    st.lastBroke st.start st.ipe = .ok st' := h
                have hws : st.tstate.is_greyspace ≠
                    byteIsWhitespace (bytes.getD st.start 0) := by
                  simpa using c2
                have hnc1 : ¬(st.lastBroke ≠ st.start ∧
                    bytes.getD st.start 0 = 47) := by
                  rintro ⟨hne, hb⟩
                  apply c1
                  rw [hb]
                  simp [bne_iff_ne, hne]
                rcases hWB with hw | hb2
                · have hwsb : byteIsWhitespace (bytes.getD st.start 0) = false := by
                    rw [hw] at hws
                    cases hx : byteIsWhitespace (bytes.getD st.start 0)
                    · rfl
                    · exact absurd (by rw [hx]; rfl) hws
                  rw [hw] at h
                  rw [emitStep_empty_grey] at h
                  injection h with h2
                  subst h2
                  refine ⟨Or.inr rfl, M_phase_lt rfl ?_⟩
                  have hpsa : phase bytes st = 1 := by
                    rw [phase_default _ _ hp h1 h2 h3 h4 h5, if_neg hnc1,
                      if_pos hws]
                  have hpsb : phase bytes
                      (⟨st.tokens ++ [Token.Whitespace []], TT.Blackspace,
                        st.lastBroke, st.ipe, st.start⟩ : LoopSt) = 0 := by
                    rw [phase_mk, if_pos hp, if_neg h1, if_neg h2, if_neg h3,
                      if_neg h4, if_neg h5]
                    rw [if_neg hnc1]
                    rw [if_neg (by rw [hwsb]; decide)]
                  rw [hpsb, hpsa]
                  omega
                · have hwsb : byteIsWhitespace (bytes.getD st.start 0) = true := by
                    rw [hb2] at hws
                    cases hx : byteIsWhitespace (bytes.getD st.start 0)
                    · exact absurd (by rw [hx]; rfl) hws
                    · rfl
                  have hb47n : bytes.getD st.start 0 ≠ 47 := by
                    intro hcon
                    rw [hcon] at hwsb
                    exact absurd hwsb (by decide)
                  rw [hb2] at h
                  rw [emitStep_empty_black] at h
                  injection h with h2
                  subst h2
                  refine ⟨Or.inl rfl, M_phase_lt rfl ?_⟩
                  have hpsa : phase bytes st = 1 := by
                    rw [phase_default _ _ hp h1 h2 h3 h4 h5,
                      if_neg (fun hcon => hb47n hcon.2), if_pos hws]
                  have hpsb : phase bytes
                      (⟨st.tokens, TT.Whitespace, st.lastBroke,
                        lastBeforeExpr st.tokens, st.start⟩ : LoopSt) = 0 := by
                    rw [phase_mk, if_pos hp, if_neg h1, if_neg h2,
                      if_neg (fun hcon => hb47n hcon.1), if_neg h4, if_neg h5]
                    rw [if_neg (fun hcon => hb47n hcon.2)]
                    rw [if_neg (by rw [hwsb]; decide)]
                  rw [hpsb, hpsa]
                  omega
              · rw [if_neg c2] at h
                obtain ⟨hst, hlb, hts⟩ := emitStep_ok_start h
                refine ⟨hts, M_advance hp ?_⟩
                rw [hst]
                exact spanScan_fst_ge _ _ _ _

lemma tokLoop_isSome (bytes : List Nat) : ∀ (fuel : Nat) (st : LoopSt),
    (st.tstate = TT.Whitespace ∨ st.tstate = TT.Blackspace) →
    M bytes st < fuel → (tokLoop bytes fuel st).isSome = true := by
  intro fuel
  induction fuel with
  | zero => intro st _ hM; exact absurd hM (by omega)
  | succ fuel ih =>
    intro st hWB hM
    rw [tokLoop]
    split
    next hlt =>
      cases hstep : tokStep bytes st with
      | error e => rfl
      | ok st' =>
          show (tokLoop bytes fuel st').isSome = true
          obtain ⟨hWB', hMlt⟩ := tokStep_progress hWB hlt hstep
          exact ih st' hWB' (by omega)
    next hge => rfl

/-- C7: `tokenize` terminates on every input — the fuel bound of the main
loop is always sufficient, so the scan reaches the end of the input on every
byte list, including iterations in which the cursor does not advance (the
loop measure `M` strictly decreases at every step) — and tokenizing the
empty string returns the empty token sequence. -/
theorem c7_termination :
    (∀ input : List Nat, (tokenizeOpt input).isSome = true) ∧
    tokenize ([] : List Nat) = .ok [] := by
  constructor
  · intro input
    unfold tokenizeOpt
    apply tokLoop_isSome
    · unfold initState
      split_ifs <;> exact Or.inl rfl
    · have h2 := phase_le_two input (initState input)
      have h3 : input.length - (initState input).start ≤ input.length :=
        Nat.sub_le _ _
      unfold tokenizeFuel M
      omega
  · rfl
